import Mathlib

/-!
Verification of the coverage time-series engine of the `toy-fuzzer-analyzer`
repository (current implementation: `crates/ityfuzz-analyzer`).

The embedding models, faithfully to the Rust source:
  * `StatsEntry` (src/crates/ityfuzz-analyzer/src/types.rs) — one coverage sample;
  * `parse_log` (src/crates/ityfuzz-analyzer/src/run.rs, lines 205-285) — the
    two-phase log-parsing state machine.  A raw log line is represented by the
    results of the two regex matches the code performs on it (`start_re` and
    `coverage_re` capture groups) together with a flag telling whether the line
    is whitespace-only (which is all `log_content.trim().is_empty()` can see);
  * `write_csv` / `read_stats_from_csv` (run.rs lines 287-297, plot.rs lines
    12-23) — the per-target CSV store, modelled at the record level: one row of
    numeric fields per sample, in the serde field order of `StatsEntry`;
  * `run_program_with_timeout` (run.rs lines 159-203) — modelled over an
    abstract environment recording the outcome of the `spawn` call and of
    `wait_with_output`;
  * `aggregate_and_plot_data` (plot.rs lines 25-148) — the last-observation-
    carried-forward aggregator; the numeric aggregation (lines 43-70) is
    modelled exactly, the chart/CSV emission is abstracted to the outcome
    `PlotOutcome` recording whether any artifact write is reached.
-/

/-- One coverage sample, `StatsEntry` of
`src/crates/ityfuzz-analyzer/src/types.rs` (the `total_instructions` field is
commented out there: "Exists in log but not used"). -/
structure StatsEntry where
  instructions_covered : Nat
  branches_covered : Nat
  time_taken_millis : Nat
deriving DecidableEq

/-- The capture groups of the coverage-line regex `coverage_re`
(`.*Coverage stat: time-millis: (\d+) instructions: (\d+)/(\d+) branches: (\d+)/\d+`). -/
structure CovCaps where
  timestamp : Nat
  instructions_covered : Nat
  total_instructions : Nat
  branches_covered : Nat
deriving DecidableEq

/-- One line of the raw fuzzer log, represented by exactly the observations
`parse_log` makes of it: the capture of the start-marker regex
(`.*Ityfuzz start at (\d+)`) if the line matches it, the captures of the
coverage regex if the line matches that, and whether the line consists only of
whitespace (a line matching either pattern is never blank). -/
structure LogLine where
  startCap : Option Nat
  covCap : Option CovCaps
  isBlank : Bool
deriving DecidableEq

/-- The two failure modes of `parse_log` (the two `eyre!` returns in
src/crates/ityfuzz-analyzer/src/run.rs): a coverage timestamp before the
anchor, and a missing `start at` anchor.  Each error names the data the
corresponding `eyre!` format string interpolates. -/
inductive ParseError where
  | orderingViolation (timestamp anchor : Nat) (contract_id : String)
  | anchorMissing (contract_id : String)
deriving DecidableEq

/-- The loop state of `parse_log`: the discovered anchor (`began_at_millis`)
and the samples accumulated so far (`entries`). -/
structure ParseState where
  began_at_millis : Option Nat
  entries : List StatsEntry
deriving DecidableEq

instance {ε α : Type} [DecidableEq ε] [DecidableEq α] : DecidableEq (Except ε α) := fun x y =>
  match x, y with
  | .ok a, .ok b =>
    if h : a = b then .isTrue (by rw [h]) else .isFalse (fun hc => h (Except.ok.inj hc))
  | .error a, .error b =>
    if h : a = b then .isTrue (by rw [h]) else .isFalse (fun hc => h (Except.error.inj hc))
  | .ok _, .error _ => .isFalse (fun hc => Except.noConfusion hc)
  | .error _, .ok _ => .isFalse (fun hc => Except.noConfusion hc)

/-- Processing of one log line by the body of the `for line in
log_content.lines()` loop of `parse_log`. -/
def processLine (contract_id : String) (s : ParseState) (line : LogLine) :
    Except ParseError ParseState :=
  let s1 : ParseState :=
    match s.began_at_millis, line.startCap with
    | none, some a => { s with began_at_millis := some a }
    | _, _ => s
  match s1.began_at_millis, line.covCap with
  | some anchor, some c =>
      if anchor ≤ c.timestamp then
        .ok { s1 with
              entries := s1.entries ++
                [⟨c.instructions_covered, c.branches_covered, c.timestamp - anchor⟩] }
      else
        .error (.orderingViolation c.timestamp anchor contract_id)
  | _, _ => .ok s1

/-- The whole line loop of `parse_log`; the `return Err(...)` inside the loop
short-circuits the remaining lines. -/
def processLines (contract_id : String) (s : ParseState) :
    List LogLine → Except ParseError ParseState
  | [] => .ok s
  | l :: ls =>
    match processLine contract_id s l with
    | .ok s2 => processLines contract_id s2 ls
    | .error e => .error e

/-- Ordered insertion by a `Nat` key: insert `a` before the first element whose
key is at least `k a`. -/
def orderedInsertK {α : Type} (k : α → Nat) (a : α) : List α → List α
  | [] => [a]
  | b :: l => if k a ≤ k b then a :: b :: l else b :: orderedInsertK k a l

/-- Stable sort by a `Nat` key (Rust `Vec::sort_by_key` is a stable sort);
insertion sort, which keeps the original relative order of equal keys. -/
def sortByKey {α : Type} (k : α → Nat) : List α → List α
  | [] => []
  | b :: l => orderedInsertK k b (sortByKey k l)

/-- Helper for `dedupAdj`: `prev` is the most recently kept element. -/
def dedupAdjGo {α : Type} (k : α → Nat) (prev : α) : List α → List α
  | [] => []
  | y :: rest =>
    if k y = k prev then dedupAdjGo k prev rest else y :: dedupAdjGo k y rest

/-- Rust `Vec::dedup_by_key` / `Vec::dedup`: removes all but the first of each
run of consecutive elements with equal key. -/
def dedupAdj {α : Type} (k : α → Nat) : List α → List α
  | [] => []
  | x :: xs => x :: dedupAdjGo k x xs

/-- The post-processing of `parse_log`:
`entries.sort_by_key(|e| e.time_taken_millis); entries.dedup_by_key(|e| e.time_taken_millis)`. -/
def postprocess (l : List StatsEntry) : List StatsEntry :=
  dedupAdj (fun e => e.time_taken_millis) (sortByKey (fun e => e.time_taken_millis) l)

/-- `parse_log` of src/crates/ityfuzz-analyzer/src/run.rs (lines 205-285):
run the line loop, then fail with the anchor-missing error when no anchor was
found and the input is not all whitespace, otherwise sort and deduplicate the
collected samples. -/
def parse_log (lines : List LogLine) (contract_id : String) :
    Except ParseError (List StatsEntry) :=
  match processLines contract_id ⟨none, []⟩ lines with
  | .error e => .error e
  | .ok s =>
    if s.began_at_millis.isNone && !(lines.all (fun l => l.isBlank)) then
      .error (.anchorMissing contract_id)
    else
      .ok (postprocess s.entries)

/-- The serde record written for one `StatsEntry` by `wtr.serialize(entry)` in
`write_csv`: the numeric fields in struct order. -/
def entryRecord (e : StatsEntry) : List Nat :=
  [e.instructions_covered, e.branches_covered, e.time_taken_millis]

/-- The header row the csv writer emits (the serde field names of `StatsEntry`). -/
def statsHeader : List String :=
  ["instructions_covered", "branches_covered", "time_taken_millis"]

/-- A per-target CSV artifact, modelled at the record level: the textual digit
encoding of each field is the csv crate's concern; the repository's code only
determines the header and the sequence of numeric records. -/
structure CsvFile where
  header : List String
  rows : List (List Nat)
deriving DecidableEq

/-- `write_csv` (src/crates/ityfuzz-analyzer/src/run.rs lines 287-297): one
record per entry, in order. -/
def write_csv (entries : List StatsEntry) : CsvFile :=
  ⟨statsHeader, entries.map entryRecord⟩

/-- Deserialization of one CSV record into a `StatsEntry` (serde requires
exactly the three fields). -/
def decodeRecord (r : List Nat) : Option StatsEntry :=
  match r with
  | [i, b, t] => some ⟨i, b, t⟩
  | _ => none

/-- The record loop of `read_stats_from_csv`: each record is deserialized with
`?`, so the first undecodable record aborts the read. -/
def decodeRows : List (List Nat) → Option (List StatsEntry)
  | [] => some []
  | r :: rs =>
    match decodeRecord r, decodeRows rs with
    | some e, some es => some (e :: es)
    | _, _ => none

/-- `read_stats_from_csv` (src/crates/ityfuzz-analyzer/src/plot.rs lines
12-23): deserialize every record, failing on a malformed file. -/
def read_stats_from_csv (f : CsvFile) : Except String (List StatsEntry) :=
  if f.header = statsHeader then
    match decodeRows f.rows with
    | some l => .ok l
    | none => .error "Failed to deserialize record"
  else
    .error "Failed to deserialize record"

/-- The outcome of `child.wait_with_output()`: exit success flag, exit code
(`None` when killed by a signal; `Some 124` is the `timeout` command's
timed-out status), and the captured output streams. -/
structure ProcessOutput where
  success : Bool
  code : Option Int
  stdout : String
  stderr : String
deriving DecidableEq

/-- The environment of one `run_program_with_timeout` call: the result of the
`Command::spawn()` call and the result of `wait_with_output()`. -/
structure SpawnBehavior where
  spawnResult : Except String Unit
  waitResult : Except String ProcessOutput
deriving DecidableEq

/-- `run_program_with_timeout` (src/crates/ityfuzz-analyzer/src/run.rs lines
159-203).  A spawn failure is wrapped with a message naming the program; a
`wait_with_output` failure is propagated by `?`; otherwise the captured stdout
is returned.  The non-success branches (stderr logging, the `Some(124)`
timed-out message) only log and do not affect the returned value. -/
def run_program_with_timeout (program_path : String) (env : SpawnBehavior) :
    Except String String :=
  match env.spawnResult with
  | .error _ => .error ("Failed to start program " ++ program_path)
  | .ok _ =>
    match env.waitResult with
    | .error e => .error e
    | .ok out => .ok out.stdout

/-- Rust `iter().max_by_key(|e| e.time_taken_millis)`: the entry with the
largest timestamp, the last such entry on ties. -/
def maxByTime : List StatsEntry → Option StatsEntry
  | [] => none
  | e :: rest =>
    match maxByTime rest with
    | none => some e
    | some m => if e.time_taken_millis ≤ m.time_taken_millis then some m else some e

/-- One target's contribution at time `t` in `aggregate_and_plot_data`
(plot.rs lines 62-66): the instruction count of its latest sample with
`time_taken_millis ≤ t`, or `0` when it has none. -/
def locf (entries : List StatsEntry) (t : Nat) : Nat :=
  match maxByTime (entries.filter (fun e => e.time_taken_millis ≤ t)) with
  | some e => e.instructions_covered
  | none => 0

/-- The global event times of `aggregate_and_plot_data` (plot.rs lines 44-52):
every `time_taken_millis` of every series, collected, sorted (`sort_unstable`)
and deduplicated (`dedup`). -/
def eventTimes (stats : List (String × List StatsEntry)) : List Nat :=
  dedupAdj (fun t => t) (sortByKey (fun t => t) ((stats.map (fun p => p.2)).flatten.map
    (fun e => e.time_taken_millis)))

/-- The Global Series built by plot.rs lines 59-70: for each event time the sum
over all targets of the carried-forward instruction count.  The code inserts
the pairs into a `BTreeMap` keyed by the event time and then iterates it; since
`eventTimes` is already strictly ascending, that iteration yields exactly this
list. -/
def aggregate (stats : List (String × List StatsEntry)) : List (Nat × Nat) :=
  (eventTimes stats).map (fun t => (t, (stats.map (fun p => locf p.2 t)).sum))

/-- The observable outcome of `aggregate_and_plot_data` (plot.rs lines 25-148):
either one of the two early informational returns, reached before any artifact
is written, or the artifact-writing tail with the aggregated Global Series. -/
inductive PlotOutcome where
  | noData
  | noTimestamps
  | wrote (globalSeries : List (Nat × Nat))
deriving DecidableEq

/-- Whether an `aggregate_and_plot_data` outcome reaches the artifact-writing
code (overall CSV + chart). -/
def writesArtifacts : PlotOutcome → Bool
  | .wrote _ => true
  | _ => false

/-- Control flow of `aggregate_and_plot_data`: empty input map → early return,
no timestamps in any series → early return, otherwise aggregate and write.
(The later `plot_data.is_empty()` check is unreachable: `plot_data` is empty
exactly when the event-time list is.)  All three paths return `Ok(())` as far
as the aggregation logic is concerned; I/O failures can only arise inside the
artifact-writing tail. -/
def aggregate_and_plot_data (stats : List (String × List StatsEntry)) : PlotOutcome :=
  if stats.isEmpty then .noData
  else if (eventTimes stats).isEmpty then .noTimestamps
  else .wrote (aggregate stats)

/-- The final action of `handle_run_command` (run.rs lines 146-150): when the
collected results map is empty, log "No data collected from any contracts" and
skip aggregation; otherwise invoke `aggregate_and_plot_data`. -/
inductive RunFinalAction where
  | skippedNoData
  | aggregated (o : PlotOutcome)
deriving DecidableEq

/-- The tail of `handle_run_command` deciding whether to aggregate. -/
def runFinalize (stats : List (String × List StatsEntry)) : RunFinalAction :=
  if stats.isEmpty then .skippedNoData else .aggregated (aggregate_and_plot_data stats)

/-- Target A of the spec's determinism example: samples `(0ms,10)` and
`(5000ms,20)` (branch counts are irrelevant to the aggregate). -/
def exampleStats : List (String × List StatsEntry) :=
  [("A", [⟨10, 0, 0⟩, ⟨20, 0, 5000⟩]),
   ("B", [⟨5, 0, 2000⟩, ⟨15, 0, 8000⟩])]

/-- A concrete anchor line (`INFO Ityfuzz start at 1000`). -/
def anchorLine1000 : LogLine := ⟨some 1000, none, false⟩

/-- Concrete well-formed coverage lines at or after the anchor `1000`,
containing a duplicated relative time (`1500` twice). -/
def covLines : List LogLine :=
  [⟨none, some ⟨1500, 5, 10, 2⟩, false⟩,
   ⟨none, some ⟨1500, 7, 12, 3⟩, false⟩,
   ⟨none, some ⟨1200, 6, 11, 2⟩, false⟩]

/-- The samples contributed by a run of coverage lines once the anchor `a` is
known: one entry per coverage match, with the timestamp made relative. -/
def entriesOfCov (a : Nat) (covs : List LogLine) : List StatsEntry :=
  (covs.filterMap (fun l => l.covCap)).map
    (fun c => ⟨c.instructions_covered, c.branches_covered, c.timestamp - a⟩)

/-- The tuple of one sample as the round-trip law states it. -/
def entryTuple (e : StatsEntry) : Nat × Nat × Nat :=
  (e.instructions_covered, e.branches_covered, e.time_taken_millis)

/-- Reading the sample tuple back off a CSV record. -/
def recordTuple (r : List Nat) : Nat × Nat × Nat :=
  match r with
  | [i, b, t] => (i, b, t)
  | _ => (0, 0, 0)

/-- Spec-side definition, following the words of the specification: "find that
target's latest sample with `relative_time_ms ≤ T`" — the sample maximizing
`relative_time_ms` among those at or before `T`. -/
def specLatestLe (l : List StatsEntry) (t : Nat) : Option StatsEntry :=
  (l.filter (fun e => e.time_taken_millis ≤ t)).argmax (fun e => e.time_taken_millis)

/-- Spec-side definition: the value a target contributes at event time `T`
("a target with no such sample contributes 0"). -/
def specContribution (l : List StatsEntry) (t : Nat) : Nat :=
  match specLatestLe l t with
  | some e => e.instructions_covered
  | none => 0

/-- Spec-side definition: "Sum `instructions_covered` across all targets to get
the aggregate value at `T`". -/
def specAggValue (stats : List (String × List StatsEntry)) (t : Nat) : Nat :=
  (stats.map (fun p => specContribution p.2 t)).sum
/-! ### Generic facts about the stable sort and the adjacent deduplication -/

theorem orderedInsertK_perm {α : Type} (k : α → Nat) (a : α) (l : List α) :
    (orderedInsertK k a l).Perm (a :: l) := by
  induction l with
  | nil => exact List.Perm.refl _
  | cons b l ih =>
    by_cases h : k a ≤ k b
    · rw [orderedInsertK, if_pos h]
    · rw [orderedInsertK, if_neg h]
      exact (ih.cons b).trans (List.Perm.swap a b l)

theorem sortByKey_perm {α : Type} (k : α → Nat) (l : List α) : (sortByKey k l).Perm l := by
  induction l with
  | nil => exact List.Perm.refl _
  | cons b l ih =>
    exact (orderedInsertK_perm k b (sortByKey k l)).trans (ih.cons b)

theorem mem_orderedInsertK {α : Type} (k : α → Nat) (a x : α) (l : List α) :
    x ∈ orderedInsertK k a l ↔ x = a ∨ x ∈ l :=
  ((orderedInsertK_perm k a l).mem_iff).trans List.mem_cons

theorem orderedInsertK_sorted {α : Type} (k : α → Nat) (a : α) (l : List α)
    (h : l.Pairwise (fun x y => k x ≤ k y)) :
    (orderedInsertK k a l).Pairwise (fun x y => k x ≤ k y) := by
  induction l with
  | nil => exact List.pairwise_singleton _ a
  | cons b l ih =>
    rcases List.pairwise_cons.mp h with ⟨hb, hl⟩
    by_cases hab : k a ≤ k b
    · rw [orderedInsertK, if_pos hab]
      refine List.pairwise_cons.mpr ⟨?_, h⟩
      intro y hy
      rcases List.mem_cons.mp hy with rfl | hy
      · exact hab
      · exact Nat.le_trans hab (hb y hy)
    · rw [orderedInsertK, if_neg hab]
      refine List.pairwise_cons.mpr ⟨?_, ih hl⟩
      intro y hy
      rcases (mem_orderedInsertK k a y l).mp hy with rfl | hy
      · exact Nat.le_of_not_le hab
      · exact hb y hy

theorem sortByKey_sorted {α : Type} (k : α → Nat) (l : List α) :
    (sortByKey k l).Pairwise (fun x y => k x ≤ k y) := by
  induction l with
  | nil => exact List.Pairwise.nil
  | cons b l ih => exact orderedInsertK_sorted k b (sortByKey k l) ih

theorem filter_orderedInsertK {α : Type} (k : α → Nat) (t : Nat) (a : α) (l : List α) :
    (orderedInsertK k a l).filter (fun e => k e == t)
      = if k a == t then a :: l.filter (fun e => k e == t)
        else l.filter (fun e => k e == t) := by
  induction l with
  | nil =>
    rw [orderedInsertK, List.filter_cons, List.filter_nil]
  | cons b l ih =>
    by_cases hab : k a ≤ k b
    · rw [orderedInsertK, if_pos hab, List.filter_cons]
    · rw [orderedInsertK, if_neg hab, List.filter_cons, ih, List.filter_cons]
      cases hbt : k b == t with
      | false =>
        simp only [Bool.false_eq_true, if_false]
      | true =>
        cases hat : k a == t with
        | false => simp only [Bool.false_eq_true, if_false, if_true]
        | true =>
          exact absurd (Nat.le_of_eq ((eq_of_beq hat).trans (eq_of_beq hbt).symm)) hab

theorem filter_sortByKey {α : Type} (k : α → Nat) (t : Nat) (l : List α) :
    (sortByKey k l).filter (fun e => k e == t) = l.filter (fun e => k e == t) := by
  induction l with
  | nil => rfl
  | cons b l ih =>
    rw [sortByKey, filter_orderedInsertK, ih, List.filter_cons]

theorem find?_eq_head?_filter {α : Type} (p : α → Bool) (l : List α) :
    l.find? p = (l.filter p).head? := by
  induction l with
  | nil => rfl
  | cons a l ih =>
    cases h : p a with
    | true => rw [List.find?_cons_of_pos _ h, List.filter_cons_of_pos h, List.head?_cons]
    | false => rw [List.find?_cons_of_neg _ (by simp [h]), List.filter_cons_of_neg (by simp [h]), ih]

theorem dedupAdjGo_key_gt {α : Type} (k : α → Nat) (prev : α) (xs : List α)
    (hall : ∀ y ∈ xs, k prev ≤ k y) (hsort : xs.Pairwise (fun a b => k a ≤ k b)) :
    ∀ y ∈ dedupAdjGo k prev xs, k prev < k y := by
  induction xs generalizing prev with
  | nil => intro y hy; cases hy
  | cons z rest ih =>
    have hpz : k prev ≤ k z := hall z (List.mem_cons_self z rest)
    rcases List.pairwise_cons.mp hsort with ⟨hz, hrest⟩
    intro y hy
    by_cases hzp : k z = k prev
    · rw [dedupAdjGo, if_pos hzp] at hy
      exact ih prev (fun w hw => hall w (List.mem_cons_of_mem z hw)) hrest y hy
    · rw [dedupAdjGo, if_neg hzp] at hy
      rcases List.mem_cons.mp hy with rfl | h
      · exact Nat.lt_of_le_of_ne hpz (fun he => hzp he.symm)
      · exact Nat.lt_of_le_of_lt hpz (ih z hz hrest y h)

theorem dedupAdjGo_pairwise {α : Type} (k : α → Nat) (prev : α) (xs : List α)
    (hall : ∀ y ∈ xs, k prev ≤ k y) (hsort : xs.Pairwise (fun a b => k a ≤ k b)) :
    (dedupAdjGo k prev xs).Pairwise (fun a b => k a < k b) := by
  induction xs generalizing prev with
  | nil => exact List.Pairwise.nil
  | cons z rest ih =>
    rcases List.pairwise_cons.mp hsort with ⟨hz, hrest⟩
    by_cases hzp : k z = k prev
    · rw [dedupAdjGo, if_pos hzp]
      exact ih prev (fun w hw => hall w (List.mem_cons_of_mem z hw)) hrest
    · rw [dedupAdjGo, if_neg hzp]
      exact List.pairwise_cons.mpr
        ⟨fun y hy => dedupAdjGo_key_gt k z rest hz hrest y hy, ih z hz hrest⟩

theorem dedupAdjGo_subset {α : Type} (k : α → Nat) (prev : α) (xs : List α) :
    ∀ y ∈ dedupAdjGo k prev xs, y ∈ xs := by
  induction xs generalizing prev with
  | nil => intro y hy; cases hy
  | cons z rest ih =>
    intro y hy
    by_cases hzp : k z = k prev
    · rw [dedupAdjGo, if_pos hzp] at hy
      exact List.mem_cons_of_mem z (ih prev y hy)
    · rw [dedupAdjGo, if_neg hzp] at hy
      rcases List.mem_cons.mp hy with rfl | h
      · exact List.mem_cons_self y rest
      · exact List.mem_cons_of_mem z (ih z y h)

theorem dedupAdjGo_keys {α : Type} (k : α → Nat) (prev : α) (xs : List α) :
    ∀ z ∈ xs, ∃ y, (y = prev ∨ y ∈ dedupAdjGo k prev xs) ∧ k y = k z := by
  induction xs generalizing prev with
  | nil => intro z hz; cases hz
  | cons w rest ih =>
    intro z hz
    by_cases hwp : k w = k prev
    · rw [dedupAdjGo, if_pos hwp]
      rcases List.mem_cons.mp hz with rfl | h
      · exact ⟨prev, Or.inl rfl, hwp.symm⟩
      · exact ih prev z h
    · rw [dedupAdjGo, if_neg hwp]
      rcases List.mem_cons.mp hz with rfl | h
      · exact ⟨z, Or.inr (List.mem_cons_self z _), rfl⟩
      · rcases ih w z h with ⟨y, hy, hk⟩
        rcases hy with rfl | h1
        · exact ⟨y, Or.inr (List.mem_cons_self y _), hk⟩
        · exact ⟨y, Or.inr (List.mem_cons_of_mem w h1), hk⟩

theorem dedupAdjGo_length {α : Type} (k : α → Nat) (prev : α) (xs : List α) :
    (dedupAdjGo k prev xs).length ≤ xs.length := by
  induction xs generalizing prev with
  | nil => exact Nat.le_refl 0
  | cons z rest ih =>
    by_cases hzp : k z = k prev
    · rw [dedupAdjGo, if_pos hzp]
      exact Nat.le_trans (ih prev) (Nat.le_succ _)
    · rw [dedupAdjGo, if_neg hzp, List.length_cons, List.length_cons]
      exact Nat.succ_le_succ (ih z)

theorem dedupAdjGo_find? {α : Type} (k : α → Nat) (prev : α) (xs : List α)
    (hall : ∀ y ∈ xs, k prev ≤ k y) (hsort : xs.Pairwise (fun a b => k a ≤ k b)) :
    ∀ y ∈ dedupAdjGo k prev xs, xs.find? (fun e => k e == k y) = some y := by
  induction xs generalizing prev with
  | nil => intro y hy; cases hy
  | cons z rest ih =>
    rcases List.pairwise_cons.mp hsort with ⟨hz, hrest⟩
    intro y hy
    by_cases hzp : k z = k prev
    · rw [dedupAdjGo, if_pos hzp] at hy
      have hlt : k prev < k y :=
        dedupAdjGo_key_gt k prev rest (fun w hw => hall w (List.mem_cons_of_mem z hw)) hrest y hy
      have hne : ¬ ((fun e => k e == k y) z = true) := by
        simp only [beq_iff_eq, hzp]
        exact Nat.ne_of_lt hlt
      exact Eq.trans (@List.find?_cons_of_neg α (fun e => k e == k y) z rest hne)
        (ih prev (fun w hw => hall w (List.mem_cons_of_mem z hw)) hrest y hy)
    · rw [dedupAdjGo, if_neg hzp] at hy
      rcases List.mem_cons.mp hy with rfl | h
      · exact List.find?_cons_of_pos _ (by simp)
      · have hlt : k z < k y := dedupAdjGo_key_gt k z rest hz hrest y h
        have hne : ¬ ((fun e => k e == k y) z = true) := by
          simp only [beq_iff_eq]
          exact Nat.ne_of_lt hlt
        exact Eq.trans (@List.find?_cons_of_neg α (fun e => k e == k y) z rest hne)
          (ih z hz hrest y h)

theorem dedupAdj_pairwise {α : Type} (k : α → Nat) (l : List α)
    (h : l.Pairwise (fun a b => k a ≤ k b)) :
    (dedupAdj k l).Pairwise (fun a b => k a < k b) := by
  cases l with
  | nil => exact List.Pairwise.nil
  | cons x xs =>
    rcases List.pairwise_cons.mp h with ⟨hx, hxs⟩
    exact List.pairwise_cons.mpr
      ⟨fun y hy => dedupAdjGo_key_gt k x xs hx hxs y hy, dedupAdjGo_pairwise k x xs hx hxs⟩

theorem dedupAdj_subset {α : Type} (k : α → Nat) (l : List α) :
    ∀ y ∈ dedupAdj k l, y ∈ l := by
  cases l with
  | nil => intro y hy; cases hy
  | cons x xs =>
    intro y hy
    rcases List.mem_cons.mp hy with rfl | h
    · exact List.mem_cons_self y xs
    · exact List.mem_cons_of_mem x (dedupAdjGo_subset k x xs y h)

theorem dedupAdj_keys {α : Type} (k : α → Nat) (l : List α) :
    ∀ z ∈ l, ∃ y ∈ dedupAdj k l, k y = k z := by
  cases l with
  | nil => intro z hz; cases hz
  | cons x xs =>
    intro z hz
    rcases List.mem_cons.mp hz with rfl | h
    · exact ⟨z, List.mem_cons_self z _, rfl⟩
    · rcases dedupAdjGo_keys k x xs z h with ⟨y, hy, hk⟩
      rcases hy with rfl | h1
      · exact ⟨y, List.mem_cons_self y _, hk⟩
      · exact ⟨y, List.mem_cons_of_mem x h1, hk⟩

theorem dedupAdj_length {α : Type} (k : α → Nat) (l : List α) :
    (dedupAdj k l).length ≤ l.length := by
  cases l with
  | nil => exact Nat.le_refl 0
  | cons x xs =>
    rw [dedupAdj, List.length_cons, List.length_cons]
    exact Nat.succ_le_succ (dedupAdjGo_length k x xs)

theorem dedupAdj_find? {α : Type} (k : α → Nat) (l : List α)
    (h : l.Pairwise (fun a b => k a ≤ k b)) :
    ∀ y ∈ dedupAdj k l, l.find? (fun e => k e == k y) = some y := by
  cases l with
  | nil => intro y hy; cases hy
  | cons x xs =>
    rcases List.pairwise_cons.mp h with ⟨hx, hxs⟩
    intro y hy
    rcases List.mem_cons.mp hy with rfl | hmem
    · exact List.find?_cons_of_pos _ (by simp)
    · have hlt : k x < k y := dedupAdjGo_key_gt k x xs hx hxs y hmem
      have hne : ¬ ((fun e => k e == k y) x = true) := by
        simp only [beq_iff_eq]
        exact Nat.ne_of_lt hlt
      exact Eq.trans (@List.find?_cons_of_neg α (fun e => k e == k y) x xs hne)
        (dedupAdjGo_find? k x xs hx hxs y hmem)

/-! ### Facts about the log-parsing state machine -/

theorem processLines_append (cid : String) (s : ParseState) (l1 l2 : List LogLine) :
    processLines cid s (l1 ++ l2) =
      match processLines cid s l1 with
      | .ok s2 => processLines cid s2 l2
      | .error e => .error e := by
  induction l1 generalizing s with
  | nil => rfl
  | cons l ls ih =>
    rw [List.cons_append, processLines, processLines]
    cases processLine cid s l with
    | ok s2 => exact ih s2
    | error e => rfl

theorem processLine_some (cid : String) (s : ParseState) (a : Nat) (line : LogLine)
    (hb : s.began_at_millis = some a) :
    processLine cid s line =
      match line.covCap with
      | some c =>
        if a ≤ c.timestamp then
          .ok ⟨some a, s.entries ++
            [⟨c.instructions_covered, c.branches_covered, c.timestamp - a⟩]⟩
        else .error (.orderingViolation c.timestamp a cid)
      | none => .ok s := by
  have hse : s = ⟨some a, s.entries⟩ := by
    cases s
    cases hb
    rfl
  cases hs : line.startCap with
  | none =>
    cases hc : line.covCap with
    | none => rw [hse]; simp [processLine, hs, hc]
    | some c => rw [hse]; simp [processLine, hs, hc]
  | some b =>
    cases hc : line.covCap with
    | none => rw [hse]; simp [processLine, hs, hc]
    | some c => rw [hse]; simp [processLine, hs, hc]

theorem processLine_newanchor (cid : String) (s : ParseState) (a : Nat) (line : LogLine)
    (hb : s.began_at_millis = none) (hs : line.startCap = some a) :
    processLine cid s line =
      match line.covCap with
      | some c =>
        if a ≤ c.timestamp then
          .ok ⟨some a, s.entries ++
            [⟨c.instructions_covered, c.branches_covered, c.timestamp - a⟩]⟩
        else .error (.orderingViolation c.timestamp a cid)
      | none => .ok ⟨some a, s.entries⟩ := by
  have hse : s = ⟨none, s.entries⟩ := by
    cases s
    cases hb
    rfl
  cases hc : line.covCap with
  | none => rw [hse]; simp [processLine, hs, hc]
  | some c => rw [hse]; simp [processLine, hs, hc]

theorem processLine_inert (cid : String) (s : ParseState) (line : LogLine)
    (hb : s.began_at_millis = none) (hs : line.startCap = none) :
    processLine cid s line = .ok s := by
  have hse : s = ⟨none, s.entries⟩ := by
    cases s
    cases hb
    rfl
  cases hc : line.covCap with
  | none => rw [hse]; simp [processLine, hs, hc]
  | some c => rw [hse]; simp [processLine, hs, hc]

theorem processLine_began_some (cid : String) (s : ParseState) (line : LogLine)
    (s2 : ParseState) (a : Nat) (hb : s.began_at_millis = some a)
    (h : processLine cid s line = .ok s2) : s2.began_at_millis = some a := by
  rw [processLine_some cid s a line hb] at h
  cases hc : line.covCap with
  | none =>
    rw [hc] at h
    cases h
    exact hb
  | some c =>
    rw [hc] at h
    dsimp only at h
    by_cases hts : a ≤ c.timestamp
    · rw [if_pos hts] at h
      cases h
      rfl
    · rw [if_neg hts] at h
      cases h

theorem processLines_began_some (cid : String) (s : ParseState) (ls : List LogLine)
    (s2 : ParseState) (a : Nat) (hb : s.began_at_millis = some a)
    (h : processLines cid s ls = .ok s2) : s2.began_at_millis = some a := by
  induction ls generalizing s with
  | nil =>
    rw [processLines] at h
    cases h
    exact hb
  | cons l ls ih =>
    rw [processLines] at h
    cases hpl : processLine cid s l with
    | ok s3 =>
      rw [hpl] at h
      exact ih s3 (processLine_began_some cid s l s3 a hb hpl) h
    | error e =>
      rw [hpl] at h
      cases h

theorem processLine_began_new (cid : String) (s : ParseState) (line : LogLine)
    (s2 : ParseState) (a : Nat) (hb : s.began_at_millis = none)
    (hs : line.startCap = some a) (h : processLine cid s line = .ok s2) :
    s2.began_at_millis = some a := by
  rw [processLine_newanchor cid s a line hb hs] at h
  cases hc : line.covCap with
  | none =>
    rw [hc] at h
    cases h
    rfl
  | some c =>
    rw [hc] at h
    dsimp only at h
    by_cases hts : a ≤ c.timestamp
    · rw [if_pos hts] at h
      cases h
      rfl
    · rw [if_neg hts] at h
      cases h

theorem processLines_inert (cid : String) (s : ParseState) (pre : List LogLine)
    (hb : s.began_at_millis = none) (hpre : ∀ l ∈ pre, l.startCap = none) :
    processLines cid s pre = .ok s := by
  induction pre with
  | nil => rfl
  | cons l ls ih =>
    rw [processLines, processLine_inert cid s l hb (hpre l (List.mem_cons_self l ls))]
    exact ih (fun w hw => hpre w (List.mem_cons_of_mem l hw))

theorem processLines_began_isSome (cid : String) (s : ParseState) (ls : List LogLine)
    (s2 : ParseState) (h2 : processLines cid s ls = .ok s2)
    (h : s.began_at_millis.isSome = true ∨ ls.any (fun l => l.startCap.isSome) = true) :
    s2.began_at_millis.isSome = true := by
  induction ls generalizing s with
  | nil =>
    rw [processLines] at h2
    cases h2
    rcases h with h | h
    · exact h
    · cases h
  | cons l ls ih =>
    rw [processLines] at h2
    cases hpl : processLine cid s l with
    | error e =>
      rw [hpl] at h2
      cases h2
    | ok s3 =>
      rw [hpl] at h2
      cases hb : s.began_at_millis with
      | some a =>
        have h3 : s3.began_at_millis = some a := processLine_began_some cid s l s3 a hb hpl
        exact ih s3 h2 (Or.inl (by rw [h3]; rfl))
      | none =>
        rcases h with h | h
        · rw [hb] at h
          cases h
        · cases hs : l.startCap with
          | some a =>
            have h3 : s3.began_at_millis = some a := processLine_began_new cid s l s3 a hb hs hpl
            exact ih s3 h2 (Or.inl (by rw [h3]; rfl))
          | none =>
            have hinert : processLine cid s l = .ok s := processLine_inert cid s l hb hs
            rw [hinert] at hpl
            cases hpl
            refine ih s h2 (Or.inr ?_)
            rw [List.any_cons, hs] at h
            simpa using h

theorem entriesOfCov_cons (a : Nat) (l : LogLine) (ls : List LogLine) :
    entriesOfCov a (l :: ls) =
      match l.covCap with
      | some c => ⟨c.instructions_covered, c.branches_covered, c.timestamp - a⟩ :: entriesOfCov a ls
      | none => entriesOfCov a ls := by
  rw [entriesOfCov, List.filterMap_cons]
  cases l.covCap with
  | none => rfl
  | some c => rw [List.map_cons]; rfl

theorem processLines_stream (cid : String) (a : Nat) (es : List StatsEntry)
    (covs : List LogLine)
    (h : ∀ l ∈ covs, (l.covCap.any (fun c => a ≤ c.timestamp)) = true) :
    processLines cid ⟨some a, es⟩ covs = .ok ⟨some a, es ++ entriesOfCov a covs⟩ := by
  induction covs generalizing es with
  | nil =>
    rw [processLines, entriesOfCov]
    simp
  | cons l ls ih =>
    have hl := h l (List.mem_cons_self l ls)
    cases hc : l.covCap with
    | none =>
      rw [hc] at hl
      cases hl
    | some c =>
      rw [hc] at hl
      have hts : a ≤ c.timestamp := of_decide_eq_true hl
      rw [processLines, processLine_some cid ⟨some a, es⟩ a l rfl, entriesOfCov_cons, hc]
      dsimp only
      rw [if_pos hts]
      dsimp only
      have hr := ih
        (es ++ [(⟨c.instructions_covered, c.branches_covered, c.timestamp - a⟩ : StatsEntry)])
        (fun w hw => h w (List.mem_cons_of_mem l hw))
      rw [List.append_assoc] at hr
      exact hr

theorem processLine_violation (cid : String) (s : ParseState) (a : Nat) (line : LogLine)
    (c : CovCaps) (hb : s.began_at_millis = some a) (hc : line.covCap = some c)
    (hts : c.timestamp < a) :
    processLine cid s line = .error (.orderingViolation c.timestamp a cid) := by
  rw [processLine_some cid s a line hb, hc]
  dsimp only
  rw [if_neg (Nat.not_le_of_lt hts)]

theorem processLine_covCap_eq (cid : String) (s : ParseState) (a : Nat)
    (l l2 : LogLine) (hb : s.began_at_millis = some a) (hc : l.covCap = l2.covCap) :
    processLine cid s l = processLine cid s l2 := by
  rw [processLine_some cid s a l hb, processLine_some cid s a l2 hb, hc]

theorem processLines_covCap_eq (cid : String) (s : ParseState) (a : Nat)
    (rest rest2 : List LogLine) (hb : s.began_at_millis = some a)
    (hcc : rest.map (fun l => l.covCap) = rest2.map (fun l => l.covCap)) :
    processLines cid s rest = processLines cid s rest2 := by
  induction rest generalizing rest2 s a with
  | nil =>
    cases rest2 with
    | nil => rfl
    | cons l2 ls2 => cases hcc
  | cons l ls ih =>
    cases rest2 with
    | nil => cases hcc
    | cons l2 ls2 =>
      rw [List.map_cons, List.map_cons] at hcc
      have hc : l.covCap = l2.covCap := (List.cons.inj hcc).1
      have hcs : ls.map (fun w => w.covCap) = ls2.map (fun w => w.covCap) :=
        (List.cons.inj hcc).2
      rw [processLines, processLines, processLine_covCap_eq cid s a l l2 hb hc]
      cases hpl : processLine cid s l2 with
      | error e => rfl
      | ok s3 =>
        exact ih s3 a ls2 (processLine_began_some cid s l2 s3 a hb hpl) hcs

/-! ### Post-processing facts -/

theorem postprocess_length (l : List StatsEntry) : (postprocess l).length ≤ l.length := by
  rw [postprocess]
  exact Nat.le_trans (dedupAdj_length _ _)
    (Nat.le_of_eq ((sortByKey_perm (fun e => e.time_taken_millis) l).length_eq))

theorem postprocess_pairwise (l : List StatsEntry) :
    (postprocess l).Pairwise (fun x y => x.time_taken_millis < y.time_taken_millis) :=
  dedupAdj_pairwise _ _ (sortByKey_sorted _ l)

theorem postprocess_find? (l : List StatsEntry) :
    ∀ e ∈ postprocess l,
      l.find? (fun x => x.time_taken_millis == e.time_taken_millis) = some e := by
  intro e he
  rw [postprocess] at he
  have h1 := dedupAdj_find? (fun x => x.time_taken_millis)
    (sortByKey (fun x => x.time_taken_millis) l) (sortByKey_sorted _ l) e he
  rw [find?_eq_head?_filter,
    ← filter_sortByKey (fun x => x.time_taken_millis) e.time_taken_millis l,
    ← find?_eq_head?_filter]
  exact h1

theorem postprocess_keys (l : List StatsEntry) :
    ∀ x ∈ l, ∃ e ∈ postprocess l, e.time_taken_millis = x.time_taken_millis := by
  intro x hx
  rw [postprocess]
  exact dedupAdj_keys _ _ x (((sortByKey_perm (fun e => e.time_taken_millis) l).mem_iff).mpr hx)

theorem postprocess_subset (l : List StatsEntry) : ∀ e ∈ postprocess l, e ∈ l := by
  intro e he
  rw [postprocess] at he
  exact ((sortByKey_perm (fun x => x.time_taken_millis) l).mem_iff).mp
    (dedupAdj_subset _ _ e he)

/-! ### The claims about the log parser -/

/-- C2: once the anchor is known, a coverage line whose timestamp is strictly
before the anchor makes `parse_log` fail with the ordering-violation error
naming the offending timestamp, the anchor, and the task id — no sample list is
returned. -/
theorem c2_ordering_violation (cid : String) (l1 l2 : List LogLine) (bad : LogLine)
    (s : ParseState) (a : Nat) (c : CovCaps)
    (h1 : processLines cid ⟨none, []⟩ l1 = .ok s)
    (h2 : s.began_at_millis = some a)
    (h3 : bad.covCap = some c)
    (h4 : c.timestamp < a) :
    parse_log (l1 ++ bad :: l2) cid = .error (.orderingViolation c.timestamp a cid) := by
  unfold parse_log
  rw [processLines_append, h1]
  dsimp only
  rw [processLines, processLine_violation cid s a bad c h2 h3 h4]

/-- Witness for C2: a concrete log whose coverage timestamp 900 precedes the
anchor 1000. -/
theorem c2_ordering_violation_witness :
    parse_log [⟨some 1000, none, false⟩, ⟨none, some ⟨900, 5, 10, 2⟩, false⟩] "c"
      = .error (.orderingViolation 900 1000 "c") :=
  c2_ordering_violation "c" [⟨some 1000, none, false⟩] []
    ⟨none, some ⟨900, 5, 10, 2⟩, false⟩ ⟨some 1000, []⟩ 1000 ⟨900, 5, 10, 2⟩
    (by decide) rfl rfl (by decide)

/-- C3 (code-bug evidence): parsing the empty log yields `ok []`, as the claim
says; but on a non-blank log with neither an anchor line nor any
coverage-looking line (a single junk line such as `hello`), the current code
returns the anchor-missing error — even though its own error message speaks of
"other stat lines being present" and its own `warn!` logged just before says
"and no stat lines".  The historical variant (src/src/run.rs lines 237-252)
errors only when a stat line is actually present, as the claim states. -/
theorem c3_anchor_missing_on_junk :
    parse_log [] "c" = .ok []
    ∧ parse_log [⟨none, none, false⟩] "c" = .error (.anchorMissing "c") :=
  ⟨by decide, by decide⟩

/-- C4 counterexample: a well-formed coverage line appearing textually before
the anchor line contributes no sample at all (it is dropped while the state
machine is still seeking the anchor), whereas the same line placed after the
anchor line contributes the sample `(5, 2, 500)` — so the result is not "exactly
as if it had appeared after the anchor line". -/
theorem c4_counterexample_pre_anchor_dropped :
    parse_log [⟨none, some ⟨1500, 5, 10, 2⟩, false⟩, ⟨some 1000, none, false⟩] "c" = .ok []
    ∧ parse_log [⟨some 1000, none, false⟩, ⟨none, some ⟨1500, 5, 10, 2⟩, false⟩] "c"
        = .ok [⟨5, 2, 500⟩] :=
  ⟨by decide, by decide⟩

/-- C4 amended: coverage matches before the anchor line are not buffered — they
are ignored entirely.  A prefix of lines without any start-marker match can be
removed without changing the parse result, provided an anchor line occurs in
the remainder. -/
theorem c4_amended_pre_anchor_ignored (cid : String) (pre rest : List LogLine)
    (hpre : ∀ l ∈ pre, l.startCap = none)
    (hrest : rest.any (fun l => l.startCap.isSome) = true) :
    parse_log (pre ++ rest) cid = parse_log rest cid := by
  unfold parse_log
  rw [processLines_append, processLines_inert cid ⟨none, []⟩ pre rfl hpre]
  dsimp only
  cases hres : processLines cid ⟨none, []⟩ rest with
  | error e => rfl
  | ok s =>
    have hsome : s.began_at_millis.isSome = true :=
      processLines_began_isSome cid ⟨none, []⟩ rest s hres (Or.inr hrest)
    cases hgot : s.began_at_millis with
    | none => rw [hgot] at hsome; cases hsome
    | some a =>
      dsimp only
      rw [hgot]
      simp

/-- Witness for C4's amended statement: dropping a junk prefix before a log
with an anchor does not change the parse. -/
theorem c4_amended_witness :
    parse_log [⟨none, some ⟨1500, 5, 10, 2⟩, false⟩, ⟨some 1000, none, false⟩] "c"
      = parse_log [⟨some 1000, none, false⟩] "c" :=
  c4_amended_pre_anchor_ignored "c" [⟨none, some ⟨1500, 5, 10, 2⟩, false⟩]
    [⟨some 1000, none, false⟩] (by decide) (by decide)

/-- C5: a log made of a valid anchor line followed by N well-formed coverage
lines at or after the anchor parses successfully into at most N samples,
strictly ascending in relative time, each sample being the first coverage
entry carrying its relative time (first occurrence wins under same-timestamp
deduplication), and with every relative time of the input represented. -/
theorem c5_parse_shape (cid : String) (a : Nat) (anchor : LogLine) (covs : List LogLine)
    (h1 : anchor.startCap = some a) (h2 : anchor.covCap = none)
    (h3 : ∀ l ∈ covs, (l.covCap.any (fun c => a ≤ c.timestamp)) = true) :
    ∃ es, parse_log (anchor :: covs) cid = .ok es
      ∧ es.length ≤ covs.length
      ∧ es.Pairwise (fun x y => x.time_taken_millis < y.time_taken_millis)
      ∧ (∀ e ∈ es, (entriesOfCov a covs).find?
          (fun x => x.time_taken_millis == e.time_taken_millis) = some e)
      ∧ ∀ c ∈ covs.filterMap (fun l => l.covCap),
          ∃ e ∈ es, e.time_taken_millis = c.timestamp - a := by
  have hstep1 : processLine cid ⟨none, []⟩ anchor = .ok ⟨some a, []⟩ := by
    rw [processLine_newanchor cid ⟨none, []⟩ a anchor rfl h1, h2]
  have hloop : processLines cid ⟨none, []⟩ (anchor :: covs)
      = .ok ⟨some a, entriesOfCov a covs⟩ := by
    rw [processLines, hstep1]
    exact processLines_stream cid a [] covs h3
  refine ⟨postprocess (entriesOfCov a covs), ?_, ?_, ?_, ?_, ?_⟩
  · unfold parse_log
    rw [hloop]
    simp
  · refine Nat.le_trans (postprocess_length _) ?_
    rw [entriesOfCov, List.length_map]
    exact List.length_filterMap_le _ _
  · exact postprocess_pairwise _
  · exact postprocess_find? _
  · intro c hc
    exact postprocess_keys (entriesOfCov a covs)
      ⟨c.instructions_covered, c.branches_covered, c.timestamp - a⟩
      (List.mem_map_of_mem _ hc)

/-- Witness for C5 at a concrete log with three coverage lines, two of which
share the relative time 500. -/
theorem c5_parse_shape_witness :
    ∃ es, parse_log (anchorLine1000 :: covLines) "c" = .ok es
      ∧ es.length ≤ covLines.length
      ∧ es.Pairwise (fun x y => x.time_taken_millis < y.time_taken_millis)
      ∧ (∀ e ∈ es, (entriesOfCov 1000 covLines).find?
          (fun x => x.time_taken_millis == e.time_taken_millis) = some e)
      ∧ ∀ c ∈ covLines.filterMap (fun l => l.covCap),
          ∃ e ∈ es, e.time_taken_millis = c.timestamp - 1000 :=
  c5_parse_shape "c" 1000 anchorLine1000 covLines rfl rfl (by decide)

/-- C9: the anchor is the value of the first line matching the start marker;
once it is fixed, the remaining lines influence the parse only through their
coverage captures, so replacing the start-marker content of every later line
(adding or removing marker lines' matches) leaves the parsed series unchanged,
and the anchor carried through the rest of the run stays the first match's
value. -/
theorem c9_first_marker_wins (cid : String) (l1 rest rest2 : List LogLine)
    (s : ParseState) (a : Nat)
    (h1 : processLines cid ⟨none, []⟩ l1 = .ok s)
    (h2 : s.began_at_millis = some a)
    (hcc : rest.map (fun l => l.covCap) = rest2.map (fun l => l.covCap)) :
    parse_log (l1 ++ rest) cid = parse_log (l1 ++ rest2) cid
    ∧ ∀ s2, processLines cid s rest = .ok s2 → s2.began_at_millis = some a := by
  constructor
  · unfold parse_log
    rw [processLines_append, processLines_append, h1]
    dsimp only
    rw [processLines_covCap_eq cid s a rest rest2 h2 hcc]
    cases hres : processLines cid s rest2 with
    | error e => rfl
    | ok s2 =>
      have hsome : s2.began_at_millis = some a :=
        processLines_began_some cid s rest2 s2 a h2 hres
      dsimp only
      rw [hsome]
      simp
  · exact fun s2 h => processLines_began_some cid s rest s2 a h2 h

/-- Witness for C9: a second marker line after the anchor, carrying a different
value, parses exactly like the same line with its marker match removed. -/
theorem c9_first_marker_wins_witness :
    parse_log [⟨some 1000, none, false⟩, ⟨some 2000, some ⟨1500, 5, 10, 2⟩, false⟩] "c"
      = parse_log [⟨some 1000, none, false⟩, ⟨none, some ⟨1500, 5, 10, 2⟩, false⟩] "c" :=
  (c9_first_marker_wins "c" [⟨some 1000, none, false⟩]
    [⟨some 2000, some ⟨1500, 5, 10, 2⟩, false⟩] [⟨none, some ⟨1500, 5, 10, 2⟩, false⟩]
    ⟨some 1000, []⟩ 1000 (by decide) rfl rfl).1

/-! ### The series store round trip -/

theorem decodeRecord_entryRecord (e : StatsEntry) : decodeRecord (entryRecord e) = some e := rfl

theorem decodeRows_map_entryRecord (l : List StatsEntry) :
    decodeRows (l.map entryRecord) = some l := by
  induction l with
  | nil => rfl
  | cons e es ih => rw [List.map_cons, decodeRows, decodeRecord_entryRecord, ih]

theorem decodeRecord_some (r : List Nat) (e : StatsEntry) (h : decodeRecord r = some e) :
    r = entryRecord e := by
  unfold decodeRecord at h
  split at h
  · cases h
    rfl
  · cases h

theorem decodeRows_shape (rows : List (List Nat)) (l : List StatsEntry)
    (h : decodeRows rows = some l) : rows = l.map entryRecord := by
  induction rows generalizing l with
  | nil =>
    rw [decodeRows] at h
    cases h
    rfl
  | cons r rs ih =>
    rw [decodeRows] at h
    cases hr : decodeRecord r with
    | none =>
      rw [hr] at h
      dsimp only at h
      cases h
    | some e =>
      rw [hr] at h
      cases hrs : decodeRows rs with
      | none =>
        rw [hrs] at h
        dsimp only at h
        cases h
      | some es =>
        rw [hrs] at h
        dsimp only at h
        cases h
        rw [List.map_cons, ← decodeRecord_some r e hr, ← ih es hrs]

theorem decodeRows_total (rows : List (List Nat))
    (h : ∀ r ∈ rows, (decodeRecord r).isSome = true) :
    ∃ l, decodeRows rows = some l := by
  induction rows with
  | nil => exact ⟨[], rfl⟩
  | cons r rs ih =>
    obtain ⟨e, he⟩ := Option.isSome_iff_exists.mp (h r (List.mem_cons_self r rs))
    obtain ⟨es, hes⟩ := ih (fun w hw => h w (List.mem_cons_of_mem r hw))
    exact ⟨e :: es, by rw [decodeRows, he, hes]⟩

/-- C6: storing a Target Series with `write_csv` and loading it back with
`read_stats_from_csv` reproduces the series exactly; and loading any
permutation of the stored rows succeeds and yields the same multiset of
`(instructions_covered, branches_covered, relative_time)` tuples, so the
round-trip law is independent of any incidental row reordering by storage. -/
theorem c6_roundtrip (entries : List StatsEntry) (rows2 : List (List Nat))
    (hperm : rows2.Perm (write_csv entries).rows) :
    read_stats_from_csv (write_csv entries) = .ok entries
    ∧ ∃ l2, read_stats_from_csv ⟨statsHeader, rows2⟩ = .ok l2
        ∧ (l2.map entryTuple).Perm (entries.map entryTuple) := by
  constructor
  · simp [read_stats_from_csv, write_csv, decodeRows_map_entryRecord]
  · have hdec : ∀ r ∈ rows2, (decodeRecord r).isSome = true := by
      intro r hr
      obtain ⟨e, _, rfl⟩ := List.mem_map.mp (hperm.subset hr)
      rw [decodeRecord_entryRecord]
      rfl
    obtain ⟨l2, hl2⟩ := decodeRows_total rows2 hdec
    refine ⟨l2, ?_, ?_⟩
    · simp [read_stats_from_csv, hl2]
    · have h1 : l2.map entryTuple = rows2.map recordTuple := by
        rw [decodeRows_shape rows2 l2 hl2, List.map_map]
        rfl
      have h2 : entries.map entryTuple = (entries.map entryRecord).map recordTuple := by
        rw [List.map_map]
        rfl
      rw [h1, h2]
      exact hperm.map recordTuple

/-- Witness for C6: a two-sample series read back from its rows stored in
reversed order. -/
theorem c6_roundtrip_witness :
    read_stats_from_csv (write_csv [⟨1, 2, 3⟩, ⟨4, 5, 6⟩]) = .ok [⟨1, 2, 3⟩, ⟨4, 5, 6⟩]
    ∧ ∃ l2, read_stats_from_csv ⟨statsHeader, [[4, 5, 6], [1, 2, 3]]⟩ = .ok l2
        ∧ (l2.map entryTuple).Perm ([⟨1, 2, 3⟩, ⟨4, 5, 6⟩].map entryTuple) :=
  c6_roundtrip [⟨1, 2, 3⟩, ⟨4, 5, 6⟩] [[4, 5, 6], [1, 2, 3]] (by decide)

/-! ### The process runner -/

/-- C7 counterexample: the claim says the runner "returns an error only when
spawning the process fails", but `run_program_with_timeout` also propagates a
failure of `child.wait_with_output()` with `?` (run.rs line 179): on an
environment where spawning succeeds and waiting fails, the call returns an
error even though the executable spawned. -/
theorem c7_counterexample_wait_failure :
    (SpawnBehavior.mk (.ok ()) (.error "wait failed")).spawnResult = .ok ()
    ∧ run_program_with_timeout "fuzzer" ⟨.ok (), .error "wait failed"⟩
        = .error "wait failed" :=
  ⟨rfl, rfl⟩

/-- C7 amended: whenever both the spawn and the wait succeed, the call returns
`Ok` with the captured stdout regardless of the child's exit status — including
a non-zero exit and the `timeout` command's timed-out status 124; it returns an
error exactly when spawning fails (wrapped with the program path) or when
collecting the child's output fails. -/
theorem c7_amended_runner (path : String) (env : SpawnBehavior) :
    (∀ out : ProcessOutput, env.spawnResult = .ok () → env.waitResult = .ok out →
      run_program_with_timeout path env = .ok out.stdout)
    ∧ (∀ msg, env.spawnResult = .error msg →
      run_program_with_timeout path env = .error ("Failed to start program " ++ path))
    ∧ (∀ msg, env.spawnResult = .ok () → env.waitResult = .error msg →
      run_program_with_timeout path env = .error msg) := by
  refine ⟨?_, ?_, ?_⟩
  · intro out hs hw
    rw [run_program_with_timeout, hs, hw]
  · intro msg hs
    rw [run_program_with_timeout, hs]
  · intro msg hs hw
    rw [run_program_with_timeout, hs, hw]

/-- Witness for C7's amended statement: a fuzzer killed by `timeout` (exit code
124, unsuccessful status) still yields its captured stdout. -/
theorem c7_amended_runner_witness :
    run_program_with_timeout "fuzzer"
      ⟨.ok (), .ok ⟨false, some 124, "partial log", "killed"⟩⟩ = .ok "partial log" :=
  (c7_amended_runner "fuzzer" ⟨.ok (), .ok ⟨false, some 124, "partial log", "killed"⟩⟩).1
    ⟨false, some 124, "partial log", "killed"⟩ rfl rfl

/-! ### Aggregation of no data -/

theorem flatten_nil_of_all_nil (stats : List (String × List StatsEntry))
    (h : ∀ p ∈ stats, p.2 = []) : (stats.map (fun p => p.2)).flatten = [] := by
  induction stats with
  | nil => rfl
  | cons p ps ih =>
    rw [List.map_cons, List.flatten_cons, h p (List.mem_cons_self p ps),
      ih (fun w hw => h w (List.mem_cons_of_mem p hw))]
    rfl

/-- C8: aggregating an empty map of targets yields the `noData` outcome before
any artifact write, with an empty Global Series; a map whose series are all
empty likewise skips every artifact write with an empty Global Series; and the
top level of the run command skips aggregation entirely (with an informational
outcome, not an error) when no target contributed samples. -/
theorem c8_empty_aggregation :
    aggregate_and_plot_data [] = .noData
    ∧ aggregate ([] : List (String × List StatsEntry)) = []
    ∧ writesArtifacts (aggregate_and_plot_data []) = false
    ∧ (∀ stats : List (String × List StatsEntry), (∀ p ∈ stats, p.2 = []) →
        writesArtifacts (aggregate_and_plot_data stats) = false ∧ aggregate stats = [])
    ∧ runFinalize [] = .skippedNoData := by
  refine ⟨rfl, rfl, rfl, ?_, rfl⟩
  intro stats h
  have htimes : eventTimes stats = [] := by
    rw [eventTimes, flatten_nil_of_all_nil stats h]
    rfl
  constructor
  · rw [aggregate_and_plot_data, htimes]
    cases hq : stats.isEmpty <;> simp [hq, writesArtifacts]
  · rw [aggregate, htimes]
    rfl

/-- Witness for C8 at a concrete one-target map whose series is empty. -/
theorem c8_empty_aggregation_witness :
    writesArtifacts (aggregate_and_plot_data [("c", [])]) = false
    ∧ aggregate [("c", [])] = [] :=
  c8_empty_aggregation.2.2.2.1 [("c", [])] (by decide)

/-! ### The aggregator -/

theorem maxByTime_ne_none (e : StatsEntry) (rest : List StatsEntry) :
    maxByTime (e :: rest) ≠ none := by
  rw [maxByTime]
  cases hr : maxByTime rest with
  | none => exact fun h => Option.noConfusion h
  | some m =>
    dsimp only
    by_cases h : e.time_taken_millis ≤ m.time_taken_millis
    · rw [if_pos h]
      exact fun hc => Option.noConfusion hc
    · rw [if_neg h]
      exact fun hc => Option.noConfusion hc

theorem maxByTime_none_nil (l : List StatsEntry) (h : maxByTime l = none) : l = [] := by
  cases l with
  | nil => rfl
  | cons e rest => exact absurd h (maxByTime_ne_none e rest)

theorem maxByTime_mem (l : List StatsEntry) (m : StatsEntry) (h : maxByTime l = some m) :
    m ∈ l := by
  induction l generalizing m with
  | nil => cases h
  | cons e rest ih =>
    rw [maxByTime] at h
    cases hr : maxByTime rest with
    | none =>
      rw [hr] at h
      dsimp only at h
      cases h
      exact List.mem_cons_self e rest
    | some m2 =>
      rw [hr] at h
      dsimp only at h
      by_cases hle : e.time_taken_millis ≤ m2.time_taken_millis
      · rw [if_pos hle] at h
        cases h
        exact List.mem_cons_of_mem e (ih m hr)
      · rw [if_neg hle] at h
        cases h
        exact List.mem_cons_self e rest

theorem maxByTime_ge (l : List StatsEntry) (m : StatsEntry) (h : maxByTime l = some m) :
    ∀ x ∈ l, x.time_taken_millis ≤ m.time_taken_millis := by
  induction l generalizing m with
  | nil => cases h
  | cons e rest ih =>
    rw [maxByTime] at h
    intro x hx
    cases hr : maxByTime rest with
    | none =>
      rw [hr] at h
      dsimp only at h
      cases h
      rw [maxByTime_none_nil rest hr] at hx
      rcases List.mem_cons.mp hx with rfl | hx2
      · exact Nat.le_refl _
      · cases hx2
    | some m2 =>
      rw [hr] at h
      dsimp only at h
      by_cases hle : e.time_taken_millis ≤ m2.time_taken_millis
      · rw [if_pos hle] at h
        cases h
        rcases List.mem_cons.mp hx with rfl | hx2
        · exact hle
        · exact ih m hr x hx2
      · rw [if_neg hle] at h
        cases h
        rcases List.mem_cons.mp hx with rfl | hx2
        · exact Nat.le_refl _
        · exact Nat.le_trans (ih m2 hr x hx2) (Nat.le_of_lt (Nat.lt_of_not_le hle))

theorem pairwise_time_inj (l : List StatsEntry)
    (h : l.Pairwise (fun x y => x.time_taken_millis < y.time_taken_millis)) :
    ∀ x ∈ l, ∀ y ∈ l, x.time_taken_millis = y.time_taken_millis → x = y := by
  induction l with
  | nil => intro x hx; cases hx
  | cons a rest ih =>
    rcases List.pairwise_cons.mp h with ⟨ha, hrest⟩
    intro x hx y hy hxy
    rcases List.mem_cons.mp hx with rfl | hx2
    · rcases List.mem_cons.mp hy with rfl | hy2
      · rfl
      · exact absurd hxy (Nat.ne_of_lt (ha y hy2))
    · rcases List.mem_cons.mp hy with rfl | hy2
      · exact absurd hxy.symm (Nat.ne_of_lt (ha x hx2))
      · exact ih hrest x hx2 y hy2 hxy

theorem locf_eq_specContribution (l : List StatsEntry) (t : Nat)
    (h : l.Pairwise (fun x y => x.time_taken_millis < y.time_taken_millis)) :
    locf l t = specContribution l t := by
  rw [locf, specContribution, specLatestLe]
  cases hm : maxByTime (l.filter (fun e => e.time_taken_millis ≤ t)) with
  | none =>
    rw [maxByTime_none_nil _ hm, List.argmax_nil]
  | some m =>
    have hmem : m ∈ l.filter (fun e => e.time_taken_millis ≤ t) := maxByTime_mem _ m hm
    cases ha : (l.filter (fun e => e.time_taken_millis ≤ t)).argmax
        (fun e => e.time_taken_millis) with
    | none =>
      rw [List.argmax_eq_none.mp ha] at hmem
      cases hmem
    | some m2 =>
      have hm2mem : m2 ∈ l.filter (fun e => e.time_taken_millis ≤ t) := List.argmax_mem ha
      have h1 : m.time_taken_millis ≤ m2.time_taken_millis := List.le_of_mem_argmax hmem ha
      have h2 : m2.time_taken_millis ≤ m.time_taken_millis := maxByTime_ge _ m hm m2 hm2mem
      dsimp only
      rw [pairwise_time_inj _ (List.Pairwise.filter _ h) m2 hm2mem m hmem
        (Nat.le_antisymm h2 h1)]

theorem eventTimes_pairwise (stats : List (String × List StatsEntry)) :
    (eventTimes stats).Pairwise (· < ·) := by
  rw [eventTimes]
  exact dedupAdj_pairwise _ _ (sortByKey_sorted _ _)

theorem mem_eventTimes (stats : List (String × List StatsEntry)) (t : Nat) :
    t ∈ eventTimes stats ↔ ∃ p ∈ stats, ∃ e ∈ p.2, e.time_taken_millis = t := by
  rw [eventTimes]
  constructor
  · intro h
    have h3 := (sortByKey_perm (fun t => t) _).mem_iff.mp (dedupAdj_subset _ _ t h)
    obtain ⟨e, he, rfl⟩ := List.mem_map.mp h3
    obtain ⟨l, hl, hel⟩ := List.mem_flatten.mp he
    obtain ⟨p, hp, rfl⟩ := List.mem_map.mp hl
    exact ⟨p, hp, e, hel, rfl⟩
  · rintro ⟨p, hp, e, he, rfl⟩
    have h3 : e.time_taken_millis
        ∈ ((stats.map (fun p => p.2)).flatten.map (fun e => e.time_taken_millis)) :=
      List.mem_map_of_mem _ (List.mem_flatten.mpr ⟨p.2, List.mem_map_of_mem _ hp, he⟩)
    obtain ⟨y, hy, hk⟩ :=
      dedupAdj_keys (fun t => t) _ e.time_taken_millis
        ((sortByKey_perm (fun t => t) _).mem_iff.mpr h3)
    have hk2 : y = e.time_taken_millis := hk
    rw [← hk2]
    exact hy

theorem map_sum_le {β : Type} (l : List β) (f g : β → Nat) (h : ∀ x ∈ l, f x ≤ g x) :
    (l.map f).sum ≤ (l.map g).sum := by
  induction l with
  | nil => exact Nat.le_refl 0
  | cons b bs ih =>
    rw [List.map_cons, List.map_cons, List.sum_cons, List.sum_cons]
    exact Nat.add_le_add (h b (List.mem_cons_self b bs))
      (ih fun w hw => h w (List.mem_cons_of_mem b hw))

theorem locf_mono (l : List StatsEntry) (t t2 : Nat)
    (hc : ∀ x ∈ l, ∀ y ∈ l, x.time_taken_millis ≤ y.time_taken_millis →
      x.instructions_covered ≤ y.instructions_covered)
    (htt : t ≤ t2) : locf l t ≤ locf l t2 := by
  rw [locf, locf]
  cases hm : maxByTime (l.filter (fun e => e.time_taken_millis ≤ t)) with
  | none =>
    dsimp only
    exact Nat.zero_le _
  | some m =>
    have hmem := maxByTime_mem _ m hm
    have hmemF2 : m ∈ l.filter (fun e => e.time_taken_millis ≤ t2) := by
      rw [List.mem_filter] at hmem ⊢
      exact ⟨hmem.1, decide_eq_true (Nat.le_trans (of_decide_eq_true hmem.2) htt)⟩
    cases hm2 : maxByTime (l.filter (fun e => e.time_taken_millis ≤ t2)) with
    | none =>
      rw [maxByTime_none_nil _ hm2] at hmemF2
      cases hmemF2
    | some m2 =>
      dsimp only
      exact hc m (List.mem_filter.mp hmem).1 m2
        (List.mem_filter.mp (maxByTime_mem _ m2 hm2)).1
        (maxByTime_ge _ m2 hm2 m hmemF2)

theorem coupling_of_pairwise (l : List StatsEntry)
    (h : l.Pairwise (fun x y => x.time_taken_millis < y.time_taken_millis
      ∧ x.instructions_covered ≤ y.instructions_covered)) :
    ∀ x ∈ l, ∀ y ∈ l, x.time_taken_millis ≤ y.time_taken_millis →
      x.instructions_covered ≤ y.instructions_covered := by
  induction l with
  | nil => intro x hx; cases hx
  | cons a rest ih =>
    rcases List.pairwise_cons.mp h with ⟨ha, hrest⟩
    intro x hx y hy hxy
    rcases List.mem_cons.mp hx with rfl | hx2
    · rcases List.mem_cons.mp hy with rfl | hy2
      · exact Nat.le_refl _
      · exact (ha y hy2).2
    · rcases List.mem_cons.mp hy with rfl | hy2
      · exact absurd hxy (Nat.not_le_of_lt (ha x hx2).1)
      · exact ih hrest x hx2 y hy2 hxy

/-- C1: for finalized input series (strictly ascending timestamps), the Global
Series produced by the aggregator has exactly the sorted set of all
`relative_time_ms` values as its event times (strictly ascending, one entry per
value appearing in any series), its value at each event time `T` is the sum
over all targets of the latest sample at or before `T` as the spec words it
(`specAggValue`, zero for a target with no such sample), and on the spec's
example (target A `[(0,10),(5000,20)]`, target B `[(2000,5),(8000,15)]`) it
yields exactly `(0,10), (2000,15), (5000,25), (8000,35)`. -/
theorem c1_aggregator_locf (stats : List (String × List StatsEntry))
    (hfin : ∀ p ∈ stats,
      (p.2).Pairwise (fun x y => x.time_taken_millis < y.time_taken_millis)) :
    ((aggregate stats).map Prod.fst).Pairwise (· < ·)
    ∧ (∀ t, t ∈ (aggregate stats).map Prod.fst
        ↔ ∃ p ∈ stats, ∃ e ∈ p.2, e.time_taken_millis = t)
    ∧ aggregate stats = (eventTimes stats).map (fun t => (t, specAggValue stats t))
    ∧ aggregate exampleStats = [(0, 10), (2000, 15), (5000, 25), (8000, 35)] := by
  have hfst : (aggregate stats).map Prod.fst = eventTimes stats := by
    rw [aggregate, List.map_map]
    exact List.map_id _
  refine ⟨?_, ?_, ?_, by decide⟩
  · rw [hfst]
    exact eventTimes_pairwise stats
  · intro t
    rw [hfst]
    exact mem_eventTimes stats t
  · rw [aggregate]
    refine List.map_congr_left ?_
    intro t _
    rw [specAggValue]
    exact congrArg (fun v => (t, v)) (congrArg List.sum
      (List.map_congr_left fun p hp => locf_eq_specContribution p.2 t (hfin p hp)))

/-- Witness for C1 on the spec's two-target example. -/
theorem c1_aggregator_locf_witness :
    aggregate exampleStats = [(0, 10), (2000, 15), (5000, 25), (8000, 35)] :=
  (c1_aggregator_locf exampleStats (by decide)).2.2.2

/-- C10: when every input series has non-decreasing `instructions_covered`
along strictly ascending timestamps, the aggregate values of the Global Series
are non-decreasing across its ascending event times. -/
theorem c10_aggregate_monotone (stats : List (String × List StatsEntry))
    (h : ∀ p ∈ stats, (p.2).Pairwise (fun x y =>
      x.time_taken_millis < y.time_taken_millis
      ∧ x.instructions_covered ≤ y.instructions_covered)) :
    ((aggregate stats).map Prod.snd).Pairwise (· ≤ ·) := by
  have hsnd : (aggregate stats).map Prod.snd
      = (eventTimes stats).map (fun t => (stats.map (fun p => locf p.2 t)).sum) := by
    rw [aggregate, List.map_map]
    rfl
  rw [hsnd]
  refine List.Pairwise.map _ ?_ (eventTimes_pairwise stats)
  intro t t2 hlt
  exact map_sum_le stats _ _ fun p hp =>
    locf_mono p.2 t t2 (coupling_of_pairwise p.2 (h p hp)) (Nat.le_of_lt hlt)

/-- Witness for C10 on the spec's two-target example (both series are strictly
ascending in time with non-decreasing instruction counts). -/
theorem c10_aggregate_monotone_witness :
    ((aggregate exampleStats).map Prod.snd).Pairwise (· ≤ ·) :=
  c10_aggregate_monotone exampleStats (by decide)
